import Mathlib

/-!
Verification development for the batch image tool.

The repository processes batches of images in a web worker: it resolves
fit geometry (contain / cover / crop), optionally removes the background
with an edge-seeded flood fill, optionally rounds corners, encodes, and
names each output through a filename template.  The repository contains
two worker variants: `src/workers/image.worker.ts` (helper functions
`calculateDrawDimensions`, `drawRoundedRectPath`, `generateFileName`) and
`src/workers/imageProcessor.worker.ts` (inline fit switch, flood-fill
background removal `removeImageBackground`, `getEdgeColor`, and filenames
via `src/utils/filenameUtils.ts`).  Both are embedded below; definitions
carry the source names where possible.  JS strings are embedded as
`List Char`, pixel coordinates as `ℕ` (with explicit guards standing for
the source's signed bounds checks), and canvas coordinates as `ℚ`.
-/

namespace BatchImageTool

/-! ## `src/utils/filenameUtils.ts` : `sanitizeFilename`

The source sanitizer is a pipeline of five steps:
replacement of the invalid-character class by hyphens, collapsing of
hyphen runs, trimming of leading and trailing spaces or hyphens, truncation to 200 characters, and the
`'untitled'` substitution for an empty result. -/

/-- The character class `[/\\?%*:|"<>]` of the first `replace`. -/
def isInvalidChar (c : Char) : Bool :=
  c = '/' || c = '\\' || c = '?' || c = '%' || c = '*' ||
  c = ':' || c = '|' || c = '"' || c = '<' || c = '>'

/-- First replace of the sanitizer: every character of the invalid
class is replaced by a hyphen. -/
def replaceInvalid (s : List Char) : List Char :=
  s.map (fun c => if isInvalidChar c then '-' else c)

/-- Second replace of the sanitizer: each maximal run of two or more hyphens
becomes a single hyphen (the recursion drops a hyphen whenever it is
followed by another one, keeping the last hyphen of every run). -/
def collapseHyphens : List Char → List Char
  | [] => []
  | [c] => [c]
  | a :: b :: rest =>
    if a = '-' && b = '-' then collapseHyphens (b :: rest)
    else a :: collapseHyphens (b :: rest)

/-- The character class `[ -]` trimmed from both ends. -/
def isTrimChar (c : Char) : Bool := c = ' ' || c = '-'

/-- Removal of the trailing `[ -]+` run. -/
def dropTrailingTrim (s : List Char) : List Char :=
  (s.reverse.dropWhile isTrimChar).reverse

/-- Third replace of the sanitizer: strip the leading and the trailing
run of spaces and hyphens. -/
def trimEnds (s : List Char) : List Char :=
  dropTrailingTrim (s.dropWhile isTrimChar)

/-- `sanitizeFilename` of `src/utils/filenameUtils.ts`. -/
def sanitizeFilename (s : List Char) : List Char :=
  let s1 := replaceInvalid s
  let s2 := collapseHyphens s1
  let s3 := trimEnds s2
  let s4 := s3.take 200
  if s4 = [] then "untitled".toList else s4

/-! Helper lemmas about the sanitizer, towards the idempotence analysis. -/

theorem collapseHyphens_subset : ∀ s : List Char, ∀ c ∈ collapseHyphens s, c ∈ s := by
  intro s
  induction s using collapseHyphens.induct with
  | case1 => simp [collapseHyphens]
  | case2 c => simp [collapseHyphens]
  | case3 a b rest h ih =>
    intro c hc
    rw [collapseHyphens, if_pos h] at hc
    exact List.mem_cons_of_mem _ (ih c hc)
  | case4 a b rest h ih =>
    intro c hc
    rw [collapseHyphens, if_neg h] at hc
    rcases List.mem_cons.1 hc with h1 | h2
    · exact h1 ▸ List.mem_cons_self _ _
    · exact List.mem_cons_of_mem _ (ih c h2)

theorem collapseHyphens_head? :
    ∀ (a : Char) (l : List Char), (collapseHyphens (a :: l)).head? = some a := by
  intro a l
  induction l generalizing a with
  | nil => simp [collapseHyphens]
  | cons b rest ih =>
    by_cases h : a = '-' && b = '-'
    · rw [collapseHyphens, if_pos h]
      rw [ih b]
      simp only [Bool.and_eq_true, decide_eq_true_eq] at h
      rw [h.1, h.2]
    · rw [collapseHyphens, if_neg h]
      simp

/-- The relation "not both hyphens" used to state that a string contains
no `--` substring. -/
def NoHH (a b : Char) : Prop := ¬(a = '-' ∧ b = '-')

theorem collapseHyphens_chain : ∀ s : List Char, List.Chain' NoHH (collapseHyphens s) := by
  intro s
  induction s using collapseHyphens.induct with
  | case1 => simp [collapseHyphens]
  | case2 c => simp [collapseHyphens]
  | case3 a b rest h ih =>
    rw [collapseHyphens, if_pos h]; exact ih
  | case4 a b rest h ih =>
    rw [collapseHyphens, if_neg h]
    rw [List.chain'_cons']
    refine ⟨?_, ih⟩
    intro y hy
    rw [collapseHyphens_head?] at hy
    cases hy
    intro hcon
    simp [hcon.1, hcon.2] at h

theorem collapseHyphens_of_chain :
    ∀ s : List Char, List.Chain' NoHH s → collapseHyphens s = s := by
  intro s
  induction s using collapseHyphens.induct with
  | case1 => intro _; rfl
  | case2 c => intro _; rfl
  | case3 a b rest h ih =>
    intro hch
    exfalso
    rcases List.chain'_cons'.1 hch with ⟨hhead, _⟩
    have := hhead b (by simp)
    simp only [NoHH] at this
    simp only [Bool.and_eq_true, decide_eq_true_eq] at h
    exact this h
  | case4 a b rest h ih =>
    intro hch
    rw [collapseHyphens, if_neg h]
    rcases List.chain'_cons'.1 hch with ⟨_, htail⟩
    rw [ih htail]

theorem replaceInvalid_clean (s : List Char) :
    ∀ c ∈ replaceInvalid s, isInvalidChar c = false := by
  intro c hc
  rcases List.mem_map.1 hc with ⟨a, _, rfl⟩
  by_cases h : isInvalidChar a = true
  · rw [if_pos h]; decide
  · rw [if_neg h]; simpa using h

theorem replaceInvalid_of_clean (s : List Char)
    (h : ∀ c ∈ s, isInvalidChar c = false) : replaceInvalid s = s := by
  unfold replaceInvalid
  rw [List.map_congr_left (g := id) (fun a ha => by simp [h a ha]), List.map_id]

theorem head?_dropWhile_false (p : Char → Bool) (l : List Char) (c : Char)
    (h : (l.dropWhile p).head? = some c) : p c = false := by
  have := List.head?_dropWhile_not p l
  rw [h] at this
  exact this

theorem trimEnds_subset (s : List Char) : ∀ c ∈ trimEnds s, c ∈ s := by
  intro c hc
  unfold trimEnds dropTrailingTrim at hc
  rw [List.mem_reverse] at hc
  have h1 : c ∈ (s.dropWhile isTrimChar).reverse :=
    (List.dropWhile_sublist isTrimChar).subset hc
  rw [List.mem_reverse] at h1
  exact (List.dropWhile_sublist isTrimChar).subset h1

theorem trimEnds_chain (s : List Char) (h : List.Chain' NoHH s) :
    List.Chain' NoHH (trimEnds s) := by
  unfold trimEnds dropTrailingTrim
  have h1 : List.Chain' NoHH (s.dropWhile isTrimChar) :=
    h.suffix (List.dropWhile_suffix isTrimChar)
  rw [List.chain'_reverse]
  exact List.Chain'.suffix ((List.chain'_reverse (R := flip NoHH)).2 h1)
    (List.dropWhile_suffix isTrimChar)

theorem trimEnds_isPrefix (s : List Char) :
    trimEnds s <+: s.dropWhile isTrimChar := by
  unfold trimEnds dropTrailingTrim
  have h : (s.dropWhile isTrimChar).reverse.dropWhile isTrimChar <:+
      (s.dropWhile isTrimChar).reverse := List.dropWhile_suffix isTrimChar
  have h2 := @List.reverse_prefix Char
    ((s.dropWhile isTrimChar).reverse.dropWhile isTrimChar)
    ((s.dropWhile isTrimChar).reverse)
  rw [List.reverse_reverse] at h2
  exact h2.2 h

theorem trimEnds_head (s : List Char) :
    ∀ c ∈ (trimEnds s).head?, isTrimChar c = false := by
  intro c hc
  rcases trimEnds_isPrefix s with ⟨t, ht⟩
  rcases hl : trimEnds s with _ | ⟨a, l⟩
  · rw [hl] at hc; cases hc
  · rw [hl] at hc ht
    simp only [List.head?_cons, Option.mem_def, Option.some.injEq] at hc
    refine hc ▸ head?_dropWhile_false isTrimChar s a ?_
    rw [← ht]; rfl

theorem trimEnds_getLast (s : List Char) :
    ∀ c ∈ (trimEnds s).getLast?, isTrimChar c = false := by
  intro c hc
  unfold trimEnds dropTrailingTrim at hc
  rw [List.getLast?_reverse] at hc
  exact head?_dropWhile_false isTrimChar _ c hc

theorem trimEnds_of_clean (s : List Char)
    (h1 : ∀ c ∈ s.head?, isTrimChar c = false)
    (h2 : ∀ c ∈ s.getLast?, isTrimChar c = false) : trimEnds s = s := by
  have hdw : s.dropWhile isTrimChar = s := by
    cases s with
    | nil => rfl
    | cons a t =>
      rw [List.dropWhile_cons, if_neg]
      simp only [List.head?_cons, Option.mem_def, Option.some.injEq, forall_eq'] at h1
      simp [h1]
  unfold trimEnds dropTrailingTrim
  rw [hdw]
  have hdw2 : s.reverse.dropWhile isTrimChar = s.reverse := by
    cases hr : s.reverse with
    | nil => rfl
    | cons a t =>
      rw [List.dropWhile_cons, if_neg]
      have ha : s.getLast? = some a := by
        rw [← List.head?_reverse, hr, List.head?_cons]
      simp [h2 a (by rw [ha]; rfl)]
  rw [hdw2, List.reverse_reverse]

theorem collapseHyphens_length_le :
    ∀ s : List Char, (collapseHyphens s).length ≤ s.length := by
  intro s
  induction s using collapseHyphens.induct with
  | case1 => simp [collapseHyphens]
  | case2 c => simp [collapseHyphens]
  | case3 a b rest h ih =>
    rw [collapseHyphens, if_pos h]
    exact le_trans ih (by simp)
  | case4 a b rest h ih =>
    rw [collapseHyphens, if_neg h]
    simpa using ih

theorem trimEnds_length_le (s : List Char) : (trimEnds s).length ≤ s.length := by
  unfold trimEnds dropTrailingTrim
  rw [List.length_reverse]
  calc ((s.dropWhile isTrimChar).reverse.dropWhile isTrimChar).length
      ≤ (s.dropWhile isTrimChar).reverse.length :=
        (List.dropWhile_sublist isTrimChar).length_le
    _ = (s.dropWhile isTrimChar).length := List.length_reverse _
    _ ≤ s.length := (List.dropWhile_sublist isTrimChar).length_le

/-- The sanitizer, written as one conditional to ease rewriting. -/
theorem sanitizeFilename_eq (s : List Char) :
    sanitizeFilename s =
      (if (trimEnds (collapseHyphens (replaceInvalid s))).take 200 = []
       then "untitled".toList
       else (trimEnds (collapseHyphens (replaceInvalid s))).take 200) := rfl

theorem sanitizeFilename_untitled :
    sanitizeFilename ("untitled".toList) = "untitled".toList := by decide

/-- A fully sanitized short string is a fixed point of the sanitizer. -/
theorem sanitizeFilename_fixed (t : List Char) (hne : t ≠ [])
    (hcl : ∀ c ∈ t, isInvalidChar c = false) (hch : List.Chain' NoHH t)
    (hh : ∀ c ∈ t.head?, isTrimChar c = false)
    (hl : ∀ c ∈ t.getLast?, isTrimChar c = false)
    (hlen : t.length ≤ 200) : sanitizeFilename t = t := by
  rw [sanitizeFilename_eq, replaceInvalid_of_clean t hcl,
    collapseHyphens_of_chain t hch, trimEnds_of_clean t hh hl,
    List.take_of_length_le hlen, if_neg hne]

/-- **C6 (amended)**: `sanitizeFilename` is idempotent on every input of
length at most 200 — on such inputs the final truncation step is a no-op,
and the first four steps produce a string that each of them fixes. -/
theorem sanitizeFilename_idem_of_le (s : List Char) (hs : s.length ≤ 200) :
    sanitizeFilename (sanitizeFilename s) = sanitizeFilename s := by
  have hlen3 : (trimEnds (collapseHyphens (replaceInvalid s))).length ≤ 200 := by
    calc (trimEnds (collapseHyphens (replaceInvalid s))).length
        ≤ (collapseHyphens (replaceInvalid s)).length := trimEnds_length_le _
      _ ≤ (replaceInvalid s).length := collapseHyphens_length_le _
      _ = s.length := List.length_map _ _
      _ ≤ 200 := hs
  have htake := List.take_of_length_le hlen3
  rw [sanitizeFilename_eq s, htake]
  by_cases h0 : trimEnds (collapseHyphens (replaceInvalid s)) = []
  · rw [if_pos h0]; exact sanitizeFilename_untitled
  · rw [if_neg h0]
    refine sanitizeFilename_fixed _ h0 ?_ ?_ (trimEnds_head _) (trimEnds_getLast _) hlen3
    · intro c hc
      exact replaceInvalid_clean s c
        (collapseHyphens_subset _ c (trimEnds_subset _ c hc))
    · exact trimEnds_chain _ (collapseHyphens_chain _)

/-- Witness: idempotence at a concrete short filename. -/
theorem sanitizeFilename_idem_of_le_witness :
    sanitizeFilename (sanitizeFilename ("my file?*.png".toList)) =
      sanitizeFilename ("my file?*.png".toList) :=
  sanitizeFilename_idem_of_le ("my file?*.png".toList) (by decide)

/-- A 201-character input whose sanitized form ends in a hyphen exposed
by the 200-character truncation. -/
def sanitizeLongInput : List Char := List.replicate 199 'a' ++ ['-', 'a']

set_option maxRecDepth 40000 in
/-- **C6 (counterexample)**: the sanitizer is not idempotent as claimed:
on 199 `a`s followed by `-a` the first pass truncates to a string ending
in `-`, which the second pass trims away. -/
theorem sanitizeFilename_not_idempotent :
    sanitizeFilename (sanitizeFilename sanitizeLongInput) ≠
      sanitizeFilename sanitizeLongInput := by decide

/-! ## Fit geometry

`calculateDrawDimensions` of `src/workers/image.worker.ts` computes the
source and destination rectangles for the three fit policies; the cover
and crop cases share one arm.  The second worker
(`src/workers/imageProcessor.worker.ts`) recomputes the same geometry
inline in its fit `switch`; it is embedded as `worker2FitRects`.
Canvas numbers are embedded as exact rationals. -/

inductive FitOption
  | contain
  | cover
  | crop
deriving DecidableEq

/-- The record `{sx, sy, sWidth, sHeight, dx, dy, dWidth, dHeight}`
returned by `calculateDrawDimensions`. -/
structure DrawDims where
  sx : ℚ
  sy : ℚ
  sWidth : ℚ
  sHeight : ℚ
  dx : ℚ
  dy : ℚ
  dWidth : ℚ
  dHeight : ℚ
deriving DecidableEq

/-- `calculateDrawDimensions` of `src/workers/image.worker.ts`. -/
def calculateDrawDimensions (imgWidth imgHeight canvasWidth canvasHeight : ℚ) :
    FitOption → DrawDims
  | .cover | .crop =>
    let imgAspect := imgWidth / imgHeight
    let canvasAspect := canvasWidth / canvasHeight
    if imgAspect > canvasAspect then
      let sWidth := imgHeight * canvasAspect
      { sx := (imgWidth - sWidth) / 2, sy := 0, sWidth := sWidth, sHeight := imgHeight,
        dx := 0, dy := 0, dWidth := canvasWidth, dHeight := canvasHeight }
    else
      let sHeight := imgWidth / canvasAspect
      { sx := 0, sy := (imgHeight - sHeight) / 2, sWidth := imgWidth, sHeight := sHeight,
        dx := 0, dy := 0, dWidth := canvasWidth, dHeight := canvasHeight }
  | .contain =>
    let imgAspect := imgWidth / imgHeight
    let canvasAspect := canvasWidth / canvasHeight
    if imgAspect > canvasAspect then
      let dHeight := canvasWidth / imgAspect
      { sx := 0, sy := 0, sWidth := imgWidth, sHeight := imgHeight,
        dx := 0, dy := (canvasHeight - dHeight) / 2, dWidth := canvasWidth, dHeight := dHeight }
    else
      let dWidth := canvasHeight * imgAspect
      { sx := 0, sy := 0, sWidth := imgWidth, sHeight := imgHeight,
        dx := (canvasWidth - dWidth) / 2, dy := 0, dWidth := dWidth, dHeight := canvasHeight }

/-- The inline fit `switch` of `src/workers/imageProcessor.worker.ts`
(lines 434-468).  Note the `cover` case tests
`imgAspectRatio < canvasAspectRatio` where its `crop` case tests
`imgAspectRatio > canvasAspectRatio`, with the same branch bodies. -/
def worker2FitRects (bitmapWidth bitmapHeight canvasWidth canvasHeight : ℚ) :
    FitOption → DrawDims
  | .contain =>
    let imgAspectRatio := bitmapWidth / bitmapHeight
    let canvasAspectRatio := canvasWidth / canvasHeight
    if imgAspectRatio > canvasAspectRatio then
      let destHeight := canvasWidth / imgAspectRatio
      { sx := 0, sy := 0, sWidth := bitmapWidth, sHeight := bitmapHeight,
        dx := 0, dy := (canvasHeight - destHeight) / 2,
        dWidth := canvasWidth, dHeight := destHeight }
    else
      let destWidth := canvasHeight * imgAspectRatio
      { sx := 0, sy := 0, sWidth := bitmapWidth, sHeight := bitmapHeight,
        dx := (canvasWidth - destWidth) / 2, dy := 0,
        dWidth := destWidth, dHeight := canvasHeight }
  | .cover =>
    let imgAspectRatio := bitmapWidth / bitmapHeight
    let canvasAspectRatio := canvasWidth / canvasHeight
    if imgAspectRatio < canvasAspectRatio then
      let sourceWidth := bitmapHeight * canvasAspectRatio
      { sx := (bitmapWidth - sourceWidth) / 2, sy := 0,
        sWidth := sourceWidth, sHeight := bitmapHeight,
        dx := 0, dy := 0, dWidth := canvasWidth, dHeight := canvasHeight }
    else
      let sourceHeight := bitmapWidth / canvasAspectRatio
      { sx := 0, sy := (bitmapHeight - sourceHeight) / 2,
        sWidth := bitmapWidth, sHeight := sourceHeight,
        dx := 0, dy := 0, dWidth := canvasWidth, dHeight := canvasHeight }
  | .crop =>
    let imgAspectRatio := bitmapWidth / bitmapHeight
    let canvasAspectRatio := canvasWidth / canvasHeight
    if imgAspectRatio > canvasAspectRatio then
      let sourceWidth := bitmapHeight * canvasAspectRatio
      { sx := (bitmapWidth - sourceWidth) / 2, sy := 0,
        sWidth := sourceWidth, sHeight := bitmapHeight,
        dx := 0, dy := 0, dWidth := canvasWidth, dHeight := canvasHeight }
    else
      let sourceHeight := bitmapWidth / canvasAspectRatio
      { sx := 0, sy := (bitmapHeight - sourceHeight) / 2,
        sWidth := bitmapWidth, sHeight := sourceHeight,
        dx := 0, dy := 0, dWidth := canvasWidth, dHeight := canvasHeight }

/-- In `calculateDrawDimensions` the cover and crop policies share one
match arm, hence produce identical geometry. -/
theorem calculateDrawDimensions_cover_eq_crop
    (imgWidth imgHeight canvasWidth canvasHeight : ℚ) :
    calculateDrawDimensions imgWidth imgHeight canvasWidth canvasHeight .cover =
      calculateDrawDimensions imgWidth imgHeight canvasWidth canvasHeight .crop := rfl

/-- Supporting development: for positive dimensions, the cover arm of
`calculateDrawDimensions` produces a source rectangle inside the source
image and the full canvas as destination rectangle. -/
theorem calculateDrawDimensions_cover_inBounds
    (iw ih cw ch : ℚ) (hiw : 0 < iw) (hih : 0 < ih) (hcw : 0 < cw) (hch : 0 < ch) :
    0 ≤ (calculateDrawDimensions iw ih cw ch .cover).sx ∧
    0 ≤ (calculateDrawDimensions iw ih cw ch .cover).sy ∧
    (calculateDrawDimensions iw ih cw ch .cover).sx +
      (calculateDrawDimensions iw ih cw ch .cover).sWidth ≤ iw ∧
    (calculateDrawDimensions iw ih cw ch .cover).sy +
      (calculateDrawDimensions iw ih cw ch .cover).sHeight ≤ ih ∧
    (calculateDrawDimensions iw ih cw ch .cover).dx = 0 ∧
    (calculateDrawDimensions iw ih cw ch .cover).dy = 0 ∧
    (calculateDrawDimensions iw ih cw ch .cover).dWidth = cw ∧
    (calculateDrawDimensions iw ih cw ch .cover).dHeight = ch := by
  dsimp only [calculateDrawDimensions]
  by_cases h : iw / ih > cw / ch
  · rw [if_pos h]
    dsimp only
    have hiwih : ih * (iw / ih) = iw := by field_simp
    have key : ih * (cw / ch) < iw := by
      have h2 := mul_lt_mul_of_pos_left h hih
      rwa [hiwih] at h2
    have hpos : 0 < ih * (cw / ch) := mul_pos hih (div_pos hcw hch)
    exact ⟨by linarith, le_refl 0, by linarith, by linarith, rfl, rfl, rfl, rfl⟩
  · rw [if_neg h]
    dsimp only
    push_neg at h
    have key : iw / (cw / ch) ≤ ih := by
      rw [div_le_iff₀ (div_pos hcw hch)]
      have h2 := mul_le_mul_of_nonneg_left h hih.le
      have hiwih : ih * (iw / ih) = iw := by field_simp
      rw [hiwih] at h2
      linarith
    have hpos : 0 < iw / (cw / ch) := div_pos hiw (div_pos hcw hch)
    exact ⟨le_refl 0, by linarith, by linarith, by linarith, rfl, rfl, rfl, rfl⟩

/-- **C1**: evaluation of the second worker's `cover` geometry at a
100x200 source and 100x100 canvas: the source rectangle starts at a
negative x and its area exceeds the source area, i.e. the cover case
produces an out-of-bounds source rectangle. -/
theorem worker2_cover_src_out_of_bounds :
    (worker2FitRects 100 200 100 100 .cover).sx < 0 ∧
    (worker2FitRects 100 200 100 100 .cover).sWidth > 100 ∧
    (worker2FitRects 100 200 100 100 .cover).sWidth *
      (worker2FitRects 100 200 100 100 .cover).sHeight > 100 * 200 ∧
    (worker2FitRects 100 200 100 100 .crop).sx = 0 ∧
    (worker2FitRects 100 200 100 100 .crop).sy = 50 ∧
    (worker2FitRects 100 200 100 100 .crop).sWidth = 100 ∧
    (worker2FitRects 100 200 100 100 .crop).sHeight = 100 := by
  norm_num [worker2FitRects]

/-- **C2**: on a 100x200 source and 100x100 canvas the second worker's
cover and crop cases produce different geometry, because the branch
bodies of the cover case are swapped relative to its comparison. -/
theorem worker2_cover_ne_crop :
    worker2FitRects 100 200 100 100 .cover ≠ worker2FitRects 100 200 100 100 .crop := by
  intro hcon
  have h := congrArg DrawDims.sx hcon
  norm_num [worker2FitRects] at h

/-! ## Rounded-corner paths

`drawRoundedRectPath` of `src/workers/image.worker.ts` clamps the radius
and emits a quadratic-curve path; the rounded-corner block of
`src/workers/imageProcessor.worker.ts` (lines 480-495) emits an `arcTo`
path using the raw, unclamped `borderRadius`.  A path is embedded as its
exact list of canvas commands. -/

inductive PathCmd
  | beginPath
  | moveTo (x y : ℚ)
  | lineTo (x y : ℚ)
  | quadraticCurveTo (cpx cpy x y : ℚ)
  | arcTo (x1 y1 x2 y2 radius : ℚ)
  | closePath
deriving DecidableEq

/-- `drawRoundedRectPath` of `src/workers/image.worker.ts`:
`radius = Math.min(radius, width / 2, height / 2)` followed by the
rounded-rectangle path commands. -/
def drawRoundedRectPath (width height radius : ℚ) : List PathCmd :=
  let r := min radius (min (width / 2) (height / 2))
  [.beginPath, .moveTo r 0, .lineTo (width - r) 0,
   .quadraticCurveTo width 0 width r, .lineTo width (height - r),
   .quadraticCurveTo width height (width - r) height, .lineTo r height,
   .quadraticCurveTo 0 height 0 (height - r), .lineTo 0 r,
   .quadraticCurveTo 0 0 r 0, .closePath]

/-- The rounded-corner path of `src/workers/imageProcessor.worker.ts`
(lines 483-492); the radius is used unclamped. -/
def worker2RoundedPath (w h borderRadius : ℚ) : List PathCmd :=
  [.beginPath, .moveTo 0 borderRadius,
   .arcTo 0 0 borderRadius 0 borderRadius, .lineTo (w - borderRadius) 0,
   .arcTo w 0 w borderRadius borderRadius, .lineTo w (h - borderRadius),
   .arcTo w h (w - borderRadius) h borderRadius, .lineTo borderRadius h,
   .arcTo 0 h 0 (h - borderRadius) borderRadius, .closePath]

/-- **C7 (amended)**: `drawRoundedRectPath` clamps, so any radius at
least `min(width, height) / 2` produces the same path as the clamped
radius itself. -/
theorem drawRoundedRectPath_clamped (width height radius : ℚ)
    (h : min width height / 2 ≤ radius) :
    drawRoundedRectPath width height radius =
      drawRoundedRectPath width height (min width height / 2) := by
  have hm : min (width / 2) (height / 2) = min width height / 2 :=
    min_div_div_right (by norm_num) width height
  simp only [drawRoundedRectPath, hm, min_eq_right h, min_self]

/-- Witness for the amended C7 at `width = 100`, `height = 50`,
`radius = 60`. -/
theorem drawRoundedRectPath_clamped_witness :
    drawRoundedRectPath 100 50 60 =
      drawRoundedRectPath 100 50 (min (100 : ℚ) 50 / 2) :=
  drawRoundedRectPath_clamped 100 50 60 (by norm_num)

/-- **C7 (counterexample)**: the second worker's rounded-corner code
does not clamp: at `100x100` with radius `60` it emits different path
commands than with the clamped radius `min(100, 100) / 2 = 50`. -/
theorem worker2RoundedPath_not_clamped :
    worker2RoundedPath 100 100 60 ≠
      worker2RoundedPath 100 100 (min (100 : ℚ) 100 / 2) := by
  intro hcon
  have h := congrArg (fun l => l.get? 1) hcon
  norm_num [worker2RoundedPath] at h

/-! ## Built-in background removal

`removeImageBackground` of `src/workers/imageProcessor.worker.ts`
(lines 320-394) together with its helpers `colorDistance` and
`getEdgeColor`.  The RGBA buffer is embedded as a function from pixel
coordinates to a `Pixel` record; the source's flat index `y * width + x`
of a pixel within bounds corresponds to the coordinate pair.  The
source's signed neighbor coordinates with their `0 ≤ n < size` checks
are embedded as candidate lists guarded on the natural coordinates. -/

structure Pixel where
  r : ℕ
  g : ℕ
  b : ℕ
  a : ℕ
deriving DecidableEq

/-- The RGB triple of a pixel, as read by the worker. -/
def Pixel.rgb (p : Pixel) : ℕ × ℕ × ℕ := (p.r, p.g, p.b)

/-- The decoded pixel buffer with its dimensions (the worker's
`ImageData`). -/
structure ImageData where
  width : ℕ
  height : ℕ
  data : ℕ → ℕ → Pixel

/-- Squared Euclidean RGB distance.  The source computes
`Math.sqrt(dr^2 + dg^2 + db^2)` and compares it with the tolerance 20;
over the reals that comparison is equivalent to comparing the squared
distance with 400, which is how `withinTolerance` states it. -/
def colorDistance2 (r1 g1 b1 r2 g2 b2 : ℕ) : ℤ :=
  ((r1 : ℤ) - r2) ^ 2 + ((g1 : ℤ) - g2) ^ 2 + ((b1 : ℤ) - b2) ^ 2

/-- `colorDistance(r, g, b, bgR, bgG, bgB) < tolerance` with
`tolerance = 20`. -/
def withinTolerance (p : Pixel) (c : ℕ × ℕ × ℕ) : Bool :=
  colorDistance2 p.r p.g p.b c.1 c.2.1 c.2.2 < 400

/-- The `samplePoints` of `getEdgeColor`: full top row, full bottom row,
full left column, full right column (corners sampled repeatedly, as in
the source). -/
def samplePositions (width height : ℕ) : List (ℕ × ℕ) :=
  (List.range width).map (fun i => (i, 0)) ++
  (List.range width).map (fun i => (i, height - 1)) ++
  (List.range height).map (fun i => (0, i)) ++
  (List.range height).map (fun i => (width - 1, i))

/-- The fold of `getEdgeColor` over the sample points: per-color counts
together with the current dominant color and its count; the dominant
color is replaced whenever a color's incremented count exceeds the
maximum seen so far. -/
def edgeColorLoop (img : ImageData) :
    List (ℕ × ℕ) → ((ℕ × ℕ × ℕ) → ℕ) → (ℕ × ℕ × ℕ) → ℕ → ℕ × ℕ × ℕ
  | [], _, dominant, _ => dominant
  | p :: rest, counts, dominant, maxCount =>
    let key := (img.data p.1 p.2).rgb
    let counts' : (ℕ × ℕ × ℕ) → ℕ :=
      fun k => if k = key then counts k + 1 else counts k
    if maxCount < counts' key then edgeColorLoop img rest counts' key (counts' key)
    else edgeColorLoop img rest counts' dominant maxCount

/-- `getEdgeColor` of `src/workers/imageProcessor.worker.ts`: dominant
color among the border samples, starting from white with count 0. -/
def getEdgeColor (img : ImageData) : ℕ × ℕ × ℕ :=
  edgeColorLoop img (samplePositions img.width img.height)
    (fun _ => 0) (255, 255, 255) 0

/-- The grid of in-bounds pixel coordinates. -/
def gridFinset (width height : ℕ) : Finset (ℕ × ℕ) :=
  Finset.range width ×ˢ Finset.range height

/-- The source's bounds check `nx ≥ 0 && nx < width && ny ≥ 0 && ny < height`
(the lower bounds are carried by the guards producing the candidates). -/
def inBounds (width height : ℕ) (q : ℕ × ℕ) : Bool :=
  q.1 < width && q.2 < height

/-- The flood-fill neighbor list `[[x, y-1], [x, y+1], [x-1, y], [x+1, y]]`
restricted by the bounds checks. -/
def neighborsOf (width height : ℕ) (p : ℕ × ℕ) : List (ℕ × ℕ) :=
  ((if 0 < p.2 then [(p.1, p.2 - 1)] else []) ++
   [(p.1, p.2 + 1)] ++
   (if 0 < p.1 then [(p.1 - 1, p.2)] else []) ++
   [(p.1 + 1, p.2)]).filter (inBounds width height)

/-- The feather-pass neighbor list `[[x-1, y], [x+1, y], [x, y-1], [x, y+1]]`
restricted by the bounds checks. -/
def featherNeighbors (width height : ℕ) (p : ℕ × ℕ) : List (ℕ × ℕ) :=
  ((if 0 < p.1 then [(p.1 - 1, p.2)] else []) ++
   [(p.1 + 1, p.2)] ++
   (if 0 < p.2 then [(p.1, p.2 - 1)] else []) ++
   [(p.1, p.2 + 1)]).filter (inBounds width height)

theorem neighborsOf_mem_grid (width height : ℕ) (p q : ℕ × ℕ)
    (hq : q ∈ neighborsOf width height p) : q ∈ gridFinset width height := by
  unfold neighborsOf at hq
  rw [List.mem_filter] at hq
  rcases hq with ⟨_, hb⟩
  unfold inBounds at hb
  simp only [Bool.and_eq_true, decide_eq_true_eq] at hb
  simp [gridFinset, Finset.mem_product, hb.1, hb.2]

/-- Specification of the per-step `newly` filter of the flood fill: a
kept neighbor is in bounds, unvisited, and within tolerance. -/
theorem newly_spec (marked : Finset (ℕ × ℕ)) (img : ImageData)
    (bg : ℕ × ℕ × ℕ) (p q : ℕ × ℕ)
    (hq : q ∈ (neighborsOf img.width img.height p).filter
      (fun q => if q ∈ marked then false
                else withinTolerance (img.data q.1 q.2) bg)) :
    q ∈ gridFinset img.width img.height ∧ q ∉ marked ∧
      withinTolerance (img.data q.1 q.2) bg = true := by
  rw [List.mem_filter] at hq
  rcases hq with ⟨hmem, hcond⟩
  by_cases hmk : q ∈ marked
  · rw [if_pos hmk] at hcond; cases hcond
  · rw [if_neg hmk] at hcond
    exact ⟨neighborsOf_mem_grid _ _ _ _ hmem, hmk, hcond⟩

/-- Lexicographic measure argument for the flood fill: every processed
queue element either marks a new in-bounds pixel or shortens the queue. -/
theorem floodFill_measure (grid marked : Finset (ℕ × ℕ))
    (N : List (ℕ × ℕ)) (p : ℕ × ℕ) (rest : List (ℕ × ℕ))
    (hsub : ∀ q ∈ N, q ∈ grid ∧ q ∉ marked) :
    Prod.Lex (· < ·) (· < ·)
      ((grid \ (marked ∪ N.toFinset)).card, (rest ++ N).length)
      ((grid \ marked).card, (p :: rest).length) := by
  rcases N with _ | ⟨q, N'⟩
  · simp only [List.toFinset_nil, Finset.union_empty, List.append_nil]
    exact Prod.Lex.right _ (by simp)
  · apply Prod.Lex.left
    apply Finset.card_lt_card
    constructor
    · exact Finset.sdiff_subset_sdiff (le_refl _) Finset.subset_union_left
    · intro hsup
      have hq := hsub q (by simp)
      have hq1 : q ∈ grid \ marked := Finset.mem_sdiff.2 ⟨hq.1, hq.2⟩
      have h2 := hsup hq1
      rw [Finset.mem_sdiff] at h2
      exact h2.2 (Finset.mem_union_right _ (by simp))

/-- The breadth-first flood fill of `removeImageBackground`: process the
queue head, mark and enqueue every unvisited in-tolerance neighbor. -/
def floodFill (img : ImageData) (bg : ℕ × ℕ × ℕ) :
    Finset (ℕ × ℕ) → List (ℕ × ℕ) → Finset (ℕ × ℕ)
  | marked, [] => marked
  | marked, p :: rest =>
    let newly := (neighborsOf img.width img.height p).filter
      (fun q => if q ∈ marked then false
                else withinTolerance (img.data q.1 q.2) bg)
    floodFill img bg (marked ∪ newly.toFinset) (rest ++ newly)
termination_by marked queue =>
  ((gridFinset img.width img.height \ marked).card, queue.length)
decreasing_by
  exact floodFill_measure _ marked _ p rest
    (fun q hq => ⟨(newly_spec marked img bg p q hq).1,
      (newly_spec marked img bg p q hq).2.1⟩)

/-- The initial queue of all border pixels, in source push order: the
two horizontal rows interleaved, then the two columns without their
first and last rows. -/
def initialSeeds (width height : ℕ) : List (ℕ × ℕ) :=
  ((List.range width).flatMap (fun x => [(x, 0), (x, height - 1)])) ++
  ((List.range' 1 (height - 2)).flatMap (fun y => [(0, y), (width - 1, y)]))

/-- The background set computed by the worker's flood fill: the border
seeds are pre-marked and then expanded from the queue. -/
def backgroundMaskSet (img : ImageData) : Finset (ℕ × ℕ) :=
  floodFill img (getEdgeColor img)
    (initialSeeds img.width img.height).toFinset
    (initialSeeds img.width img.height)

/-- `removeImageBackground`: mask value 1 (flood-filled background) sets
alpha to 0; mask value 2 (foreground pixel 4-adjacent to background)
halves alpha (`Math.floor(a * 0.5)`); other pixels are untouched. -/
def removeImageBackground (img : ImageData) : ImageData :=
  { width := img.width, height := img.height,
    data := fun x y =>
      if x < img.width ∧ y < img.height then
        if (x, y) ∈ backgroundMaskSet img then
          { img.data x y with a := 0 }
        else if (featherNeighbors img.width img.height (x, y)).any
            (fun q => decide (q ∈ backgroundMaskSet img)) then
          { img.data x y with a := (img.data x y).a / 2 }
        else img.data x y
      else img.data x y }

/-- **C10**: `removeImageBackground` never touches the RGB channels and
never increases alpha: background pixels get alpha 0, feathered pixels
get half their alpha, everything else is unchanged. -/
theorem removeImageBackground_frame (img : ImageData) (x y : ℕ) :
    ((removeImageBackground img).data x y).r = (img.data x y).r ∧
    ((removeImageBackground img).data x y).g = (img.data x y).g ∧
    ((removeImageBackground img).data x y).b = (img.data x y).b ∧
    ((removeImageBackground img).data x y).a ≤ (img.data x y).a := by
  dsimp only [removeImageBackground]
  by_cases h1 : x < img.width ∧ y < img.height
  · rw [if_pos h1]
    by_cases h2 : (x, y) ∈ backgroundMaskSet img
    · rw [if_pos h2]
      exact ⟨rfl, rfl, rfl, Nat.zero_le _⟩
    · rw [if_neg h2]
      by_cases h3 : (featherNeighbors img.width img.height (x, y)).any
          (fun q => decide (q ∈ backgroundMaskSet img)) = true
      · rw [if_pos h3]
        exact ⟨rfl, rfl, rfl, Nat.div_le_self _ _⟩
      · rw [if_neg h3]
        exact ⟨rfl, rfl, rfl, le_refl _⟩
  · rw [if_neg h1]
    exact ⟨rfl, rfl, rfl, le_refl _⟩

/-! Behaviour of the flood fill on a uniformly colored image. -/

theorem withinTolerance_self (p : Pixel) (c : ℕ × ℕ × ℕ) (h : p.rgb = c) :
    withinTolerance p c = true := by
  rcases c with ⟨cr, cg, cb⟩
  rw [Pixel.rgb, Prod.mk.injEq, Prod.mk.injEq] at h
  unfold withinTolerance colorDistance2
  rw [h.1, h.2.1, h.2.2]
  simp

theorem edgeColorLoop_dominant (img : ImageData) (c : ℕ × ℕ × ℕ) :
    ∀ (lst : List (ℕ × ℕ)) (counts : (ℕ × ℕ × ℕ) → ℕ) (mc : ℕ),
      (∀ p ∈ lst, (img.data p.1 p.2).rgb = c) →
      edgeColorLoop img lst counts c mc = c := by
  intro lst
  induction lst with
  | nil => intro counts mc _; rfl
  | cons p rest ih =>
    intro counts mc hall
    have hk := hall p (by simp)
    dsimp only [edgeColorLoop]
    rw [hk]
    split_ifs <;> exact ih _ _ (fun q hq => hall q (by simp [hq]))

theorem getEdgeColor_uniform (img : ImageData) (c : ℕ × ℕ × ℕ)
    (hw : 1 ≤ img.width) (hh : 1 ≤ img.height)
    (huni : ∀ x y, x < img.width → y < img.height → (img.data x y).rgb = c) :
    getEdgeColor img = c := by
  unfold getEdgeColor
  have hall : ∀ p ∈ samplePositions img.width img.height,
      (img.data p.1 p.2).rgb = c := by
    intro p hp
    unfold samplePositions at hp
    simp only [List.mem_append, List.mem_map, List.mem_range] at hp
    rcases hp with ((⟨i, hi, rfl⟩ | ⟨i, hi, rfl⟩) | ⟨i, hi, rfl⟩) | ⟨i, hi, rfl⟩
    · exact huni i 0 hi (by omega)
    · exact huni i (img.height - 1) hi (by omega)
    · exact huni 0 i (by omega) hi
    · exact huni (img.width - 1) i (by omega) hi
  rcases hs : samplePositions img.width img.height with _ | ⟨p, rest⟩
  · exfalso
    have : (0, 0) ∈ samplePositions img.width img.height := by
      unfold samplePositions
      refine List.mem_append.2 (Or.inl (List.mem_append.2 (Or.inl
        (List.mem_append.2 (Or.inl ?_)))))
      exact List.mem_map.2 ⟨0, List.mem_range.2 (by omega), rfl⟩
    rw [hs] at this
    cases this
  · rw [hs] at hall
    dsimp only [edgeColorLoop]
    split
    · rw [hall p (by simp)]
      exact edgeColorLoop_dominant img c _ _ _ (fun q hq => hall q (by simp [hq]))
    · next hge =>
      exfalso
      apply hge
      simp

theorem floodFill_mono (img : ImageData) (bg : ℕ × ℕ × ℕ)
    (marked : Finset (ℕ × ℕ)) (queue : List (ℕ × ℕ)) :
    marked ⊆ floodFill img bg marked queue := by
  induction marked, queue using floodFill.induct img bg with
  | case1 marked => rw [floodFill]
  | case2 marked p rest newly =>
    rename_i ih
    rw [floodFill]
    exact fun q hq => ih (Finset.mem_union_left _ hq)

/-- Flood-fill invariant: every marked pixel that is no longer queued
already has all its in-tolerance neighbors marked. -/
def FillClosed (img : ImageData) (bg : ℕ × ℕ × ℕ)
    (marked : Finset (ℕ × ℕ)) (queue : List (ℕ × ℕ)) : Prop :=
  ∀ p ∈ marked, p ∉ queue →
    ∀ q ∈ neighborsOf img.width img.height p,
      withinTolerance (img.data q.1 q.2) bg = true → q ∈ marked

theorem floodFill_closed (img : ImageData) (bg : ℕ × ℕ × ℕ)
    (marked : Finset (ℕ × ℕ)) (queue : List (ℕ × ℕ)) :
    FillClosed img bg marked queue →
      FillClosed img bg (floodFill img bg marked queue) [] := by
  induction marked, queue using floodFill.induct img bg with
  | case1 marked =>
    intro h
    rw [floodFill]
    exact h
  | case2 marked p rest newly =>
    rename_i ih
    intro h
    rw [floodFill]
    apply ih
    intro p' hp' hp'q q hq hmq
    rw [Finset.mem_union] at hp'
    rcases hp' with hp' | hp'
    · by_cases hpp : p' = p
      · subst hpp
        by_cases hqm : q ∈ marked
        · exact Finset.mem_union_left _ hqm
        · refine Finset.mem_union_right _ ?_
          rw [List.mem_toFinset, List.mem_filter]
          exact ⟨hq, by simp [hqm, hmq]⟩
      · have hp'old : p' ∉ p :: rest := by
          intro hcon
          rcases List.mem_cons.1 hcon with h1 | h1
          · exact hpp h1
          · exact hp'q (List.mem_append.2 (Or.inl h1))
        exact Finset.mem_union_left _ (h p' hp' hp'old q hq hmq)
    · exfalso
      rw [List.mem_toFinset] at hp'
      exact hp'q (List.mem_append.2 (Or.inr hp'))

theorem backgroundMaskSet_closed (img : ImageData) :
    ∀ p ∈ backgroundMaskSet img, ∀ q ∈ neighborsOf img.width img.height p,
      withinTolerance (img.data q.1 q.2) (getEdgeColor img) = true →
      q ∈ backgroundMaskSet img := by
  have h := floodFill_closed img (getEdgeColor img)
    (initialSeeds img.width img.height).toFinset
    (initialSeeds img.width img.height)
    (fun p hp hpq => absurd (List.mem_toFinset.1 hp) hpq)
  intro p hp q hq hm
  exact h p hp (by simp) q hq hm

theorem seed_row_mem (width height x : ℕ) (hx : x < width) :
    (x, 0) ∈ initialSeeds width height := by
  unfold initialSeeds
  refine List.mem_append.2 (Or.inl ?_)
  rw [List.mem_flatMap]
  exact ⟨x, List.mem_range.2 hx, by simp⟩

theorem mem_neighborsOf_south (width height x y : ℕ)
    (hx : x < width) (hy : y + 1 < height) :
    (x, y + 1) ∈ neighborsOf width height (x, y) := by
  unfold neighborsOf
  rw [List.mem_filter]
  refine ⟨by simp, ?_⟩
  unfold inBounds
  simp [hx, hy]

theorem backgroundMaskSet_full (img : ImageData) (c : ℕ × ℕ × ℕ)
    (hw : 1 ≤ img.width) (hh : 1 ≤ img.height)
    (huni : ∀ x y, x < img.width → y < img.height → (img.data x y).rgb = c) :
    ∀ y x, x < img.width → y < img.height → (x, y) ∈ backgroundMaskSet img := by
  intro y
  induction y with
  | zero =>
    intro x hx _
    exact floodFill_mono img _ _ _
      (List.mem_toFinset.2 (seed_row_mem _ _ x hx))
  | succ n ih =>
    intro x hx hy
    have hmem : (x, n) ∈ backgroundMaskSet img := ih x hx (by omega)
    apply backgroundMaskSet_closed img (x, n) hmem (x, n + 1)
      (mem_neighborsOf_south _ _ x n hx hy)
    rw [getEdgeColor_uniform img c hw hh huni]
    exact withinTolerance_self _ c (huni x (n + 1) hx hy)

/-- **C8**: on an image whose pixels all share one RGB color, the flood
fill marks every pixel as background, so `removeImageBackground` sets
every pixel's alpha to 0 (no feathered or foreground pixel remains). -/
theorem removeImageBackground_uniform (img : ImageData) (c : ℕ × ℕ × ℕ)
    (hw : 1 ≤ img.width) (hh : 1 ≤ img.height)
    (huni : ∀ x y, x < img.width → y < img.height → (img.data x y).rgb = c)
    (x y : ℕ) (hx : x < img.width) (hy : y < img.height) :
    (x, y) ∈ backgroundMaskSet img ∧
      ((removeImageBackground img).data x y).a = 0 := by
  have hmem := backgroundMaskSet_full img c hw hh huni y x hx hy
  refine ⟨hmem, ?_⟩
  dsimp only [removeImageBackground]
  rw [if_pos ⟨hx, hy⟩, if_pos hmem]

/-- A concrete 1x1 single-color image. -/
def uniformTestImage : ImageData :=
  { width := 1, height := 1, data := fun _ _ => ⟨10, 20, 30, 255⟩ }

/-- Witness for C8 at the concrete single-color image. -/
theorem removeImageBackground_uniform_witness :
    (0, 0) ∈ backgroundMaskSet uniformTestImage ∧
      ((removeImageBackground uniformTestImage).data 0 0).a = 0 :=
  removeImageBackground_uniform uniformTestImage (10, 20, 30)
    (by decide) (by decide) (fun _ _ _ _ => rfl) 0 0 (by decide) (by decide)

/-! ## Filename templating

`parseFilenameTemplate` and `getUniqueFilename` of
`src/utils/filenameUtils.ts`, and `generateFileName` of
`src/workers/image.worker.ts`.  JS numbers rendered into templates are
embedded through a decimal printer; global literal regex replacement is
embedded as a left-to-right scan.  Both scans are fuelled with a bound
that always suffices (every step consumes at least one character /
collision), keeping the definitions structurally recursive and hence
evaluable. -/

/-- The decimal digit character `0 + d`. -/
def digitChar (d : ℕ) : Char := Char.ofNat (48 + d)

/-- Decimal rendering of a natural number; `fuel = n + 1` bounds the
number of divisions by 10 and always suffices. -/
def natToCharsCore : ℕ → ℕ → List Char
  | 0, n => [digitChar n]
  | fuel + 1, n =>
    if n < 10 then [digitChar n]
    else natToCharsCore fuel (n / 10) ++ [digitChar (n % 10)]

/-- JS `Number.prototype.toString` for the naturals used in templates. -/
def natToChars (n : ℕ) : List Char := natToCharsCore (n + 1) n

/-- One global literal replacement pass, scanning left to right and
replacing each non-overlapping occurrence; the fuel (the scan length)
always suffices because each step consumes at least one character. -/
def replaceAllCore (pat repl : List Char) : ℕ → List Char → List Char
  | _, [] => []
  | 0, s => s
  | fuel + 1, c :: cs =>
    if pat ≠ [] ∧ pat.isPrefixOf (c :: cs) then
      repl ++ replaceAllCore pat repl fuel ((c :: cs).drop pat.length)
    else c :: replaceAllCore pat repl fuel cs

/-- `String.prototype.replace` with a global literal pattern. -/
def replaceAll (pat repl s : List Char) : List Char :=
  replaceAllCore pat repl s.length s

/-- The index of the last `'.'`, when present
(JS `String.prototype.lastIndexOf`). -/
def lastDotPos : List Char → Option ℕ
  | [] => none
  | c :: cs =>
    match lastDotPos cs with
    | some i => some (i + 1)
    | none => if c = '.' then some 0 else none

/-- The `substring` pair used by `filenameUtils`: cut at the last dot
when its index is positive (`lastIndexOf('.') > 0`), else the whole
string with an empty extension. -/
def splitAtLastDot (s : List Char) : List Char × List Char :=
  match lastDotPos s with
  | some i => if 0 < i then (s.take i, s.drop i) else (s, [])
  | none => (s, [])

/-- `gcd` of `src/utils/filenameUtils.ts`
(`b == 0 ? a : gcd(b, a % b)`). -/
def gcdJS (a b : ℕ) : ℕ :=
  if h : b = 0 then a else gcdJS b (a % b)
termination_by b
decreasing_by exact Nat.mod_lt a (Nat.pos_of_ne_zero h)

inductive ImageFormat
  | jpeg
  | png
  | webp
deriving DecidableEq

/-- The format's lowercase name, used for `\x7bext\x7d` and the appended
extension. -/
def ImageFormat.chars : ImageFormat → List Char
  | .jpeg => "jpeg".toList
  | .png => "png".toList
  | .webp => "webp".toList

/-- The `\x7bratio\x7d` string of `parseFilenameTemplate`:
`width/g x height/g` when both dimensions are nonzero, else empty. -/
def ratioChars (w h : ℕ) : List Char :=
  if w ≠ 0 ∧ h ≠ 0 then
    natToChars (w / gcdJS w h) ++ 'x' :: natToChars (h / gcdJS w h)
  else []

/-- The `ImageMetadata` record of `src/utils/filenameUtils.ts`. -/
structure ImageMetadata where
  originalName : List Char
  outputWidth : ℕ
  outputHeight : ℕ
  outputFormat : ImageFormat
  presetName : Option (List Char)
  timestamp : ℕ
  index : ℕ

/-- `parseFilenameTemplate` of `src/utils/filenameUtils.ts`: substitute
the eight placeholders in source order, then sanitize.  (The source also
computes an unused `originalExt` local, omitted here.) -/
def parseFilenameTemplate (template : List Char) (m : ImageMetadata) : List Char :=
  let nameWithoutExt := (splitAtLastDot m.originalName).1
  let f1 := replaceAll ("{name}".toList) nameWithoutExt template
  let f2 := replaceAll ("{ext}".toList) m.outputFormat.chars f1
  let f3 := replaceAll ("{index}".toList) (natToChars (m.index + 1)) f2
  let f4 := replaceAll ("{width}".toList) (natToChars m.outputWidth) f3
  let f5 := replaceAll ("{height}".toList) (natToChars m.outputHeight) f4
  let f6 := replaceAll ("{ratio}".toList) (ratioChars m.outputWidth m.outputHeight) f5
  let f7 := replaceAll ("{preset}".toList) (m.presetName.getD []) f6
  let f8 := replaceAll ("{timestamp}".toList) (natToChars m.timestamp) f7
  sanitizeFilename f8

/-- The collision loop of `getUniqueFilename`: try
`stem(counter)ext` for increasing counters.  The fuel
(`existing.length + 1`) always suffices: the candidates for distinct
counters are distinct names, and only members of `existing` collide. -/
def getUniqueFilenameCore (stem ext : List Char) (existing : List (List Char)) :
    ℕ → ℕ → List Char
  | 0, counter => stem ++ '(' :: natToChars counter ++ ')' :: ext
  | fuel + 1, counter =>
    let candidate := stem ++ '(' :: natToChars counter ++ ')' :: ext
    if candidate ∈ existing then
      getUniqueFilenameCore stem ext existing fuel (counter + 1)
    else candidate

/-- `getUniqueFilename` of `src/utils/filenameUtils.ts`. -/
def getUniqueFilename (preferredName : List Char)
    (existing : List (List Char)) : List Char :=
  if preferredName ∈ existing then
    getUniqueFilenameCore (splitAtLastDot preferredName).1
      (splitAtLastDot preferredName).2 existing (existing.length + 1) 1
  else preferredName

/-- `generateFileName` of `src/workers/image.worker.ts`.  `Date.now()`
executes inside this function; its reading is the `timestamp` argument,
supplied per call by the loop model.  `(width / height).toFixed(2)` is
floating-point formatting, abstracted as the `ratioStr` argument (no
theorem below depends on it). -/
def generateFileName (originalName originalId : List Char) (index : ℕ)
    (template : List Char) (format : ImageFormat) (width height : ℕ)
    (presetName : Option (List Char)) (ratioStr : List Char)
    (timestamp : ℕ) : List Char :=
  let nameWithoutExt := List.intercalate ['.'] ((originalName.splitOn '.').dropLast)
  let f1 := replaceAll ("{name}".toList) nameWithoutExt template
  let f2 := replaceAll ("{ext}".toList) format.chars f1
  let f3 := replaceAll ("{index}".toList) (natToChars index) f2
  let f4 := replaceAll ("{width}".toList) (natToChars width) f3
  let f5 := replaceAll ("{height}".toList) (natToChars height) f4
  let f6 := replaceAll ("{ratio}".toList) ratioStr f5
  let f7 := replaceAll ("{preset}".toList) (presetName.getD []) f6
  let f8 := replaceAll ("{timestamp}".toList) (natToChars timestamp) f7
  if ('.' :: format.chars).isSuffixOf f8 then f8 else f8 ++ '.' :: format.chars

/-! ## The imageProcessor.worker batch loop

The `onmessage` handler of `src/workers/imageProcessor.worker.ts`
(lines 396-547): one timestamp per batch, a strictly sequential loop,
per-image try/catch, a filename registry, a progress message per
successful image and one final `done` message.  External outcomes
(decode resolving, `convertToBlob` yielding a blob) are per-item oracle
fields; `Date.now()` readings come from a `clock` stream, of which this
worker takes a single reading. -/

structure Worker2Item where
  name : List Char
  id : List Char
  decodeOk : Bool
  encodeOk : Bool
  blobSize : ℕ

structure Worker2Options where
  width : ℕ
  height : ℕ
  fit : FitOption
  borderRadius : ℚ
  format : ImageFormat
  quality : Option ℕ
  removeBackground : Bool
  filenameTemplate : List Char
  presetName : Option (List Char)

structure Worker2Result where
  filename : List Char
  width : ℕ
  height : ℕ
  size : ℕ
  originalId : List Char
deriving DecidableEq

inductive Worker2Event
  | progress (processedCount totalCount : ℕ) (imageName : List Char)
  | done (results : List Worker2Result)
deriving DecidableEq

def Worker2Event.isProgressEvent : Worker2Event → Bool
  | .progress _ _ _ => true
  | .done _ => false

/-- Work units performed inside the loop body, recorded to state where
per-image work happens. -/
inductive Worker2Action
  | decodeAttempt (imageName : List Char)
  | encodeAttempt (imageName : List Char)
deriving DecidableEq

def Worker2Action.isDecode : Worker2Action → Bool
  | .decodeAttempt _ => true
  | .encodeAttempt _ => false

def Worker2Action.actionName : Worker2Action → List Char
  | .decodeAttempt n => n
  | .encodeAttempt n => n

structure Worker2Output where
  actions : List Worker2Action
  events : List Worker2Event
  results : List Worker2Result
  baseNames : List (List Char)

/-- The batch loop: index `i`, filename registry, one shared timestamp.
A decode failure is caught and skips the image; a null blob skips the
result and the progress message; a successful image is named through the
template, made unique against the registry, appended to the results and
reported with `processedCount = i + 1`. -/
def worker2Loop (opts : Worker2Options) (ts totalCount : ℕ) :
    List Worker2Item → ℕ → List (List Char) → Worker2Output
  | [], _, _ => ⟨[], [], [], []⟩
  | item :: rest, i, registry =>
    if item.decodeOk then
      let effFormat := if opts.removeBackground ∧ opts.format = ImageFormat.jpeg
        then ImageFormat.png else opts.format
      if item.encodeOk then
        let base := parseFilenameTemplate opts.filenameTemplate
          { originalName := item.name, outputWidth := opts.width,
            outputHeight := opts.height, outputFormat := effFormat,
            presetName := opts.presetName, timestamp := ts, index := i }
        let finalName := getUniqueFilename base registry
        let res : Worker2Result :=
          { filename := finalName, width := opts.width, height := opts.height,
            size := item.blobSize, originalId := item.id }
        let tail := worker2Loop opts ts totalCount rest (i + 1) (registry ++ [finalName])
        { actions := .decodeAttempt item.name :: .encodeAttempt item.name :: tail.actions,
          events := .progress (i + 1) totalCount item.name :: tail.events,
          results := res :: tail.results,
          baseNames := base :: tail.baseNames }
      else
        let tail := worker2Loop opts ts totalCount rest (i + 1) registry
        { tail with
          actions := .decodeAttempt item.name :: .encodeAttempt item.name :: tail.actions }
    else
      let tail := worker2Loop opts ts totalCount rest (i + 1) registry
      { tail with actions := .decodeAttempt item.name :: tail.actions }

/-- The `onmessage` handler: one `Date.now()` reading, the loop from
index 0 with an empty registry, then the `done` message with the
accumulated results. -/
def worker2Run (opts : Worker2Options) (clock : ℕ → ℕ)
    (items : List Worker2Item) : Worker2Output :=
  let ts := clock 0
  let out := worker2Loop opts ts items.length items 0 []
  { out with events := out.events ++ [.done out.results] }

/-! Theorems about the batch loop. -/

theorem worker2Loop_events_progress (opts : Worker2Options) (ts totalCount : ℕ) :
    ∀ (items : List Worker2Item) (i : ℕ) (registry : List (List Char)),
      ((worker2Loop opts ts totalCount items i registry).events.all
        Worker2Event.isProgressEvent) = true := by
  intro items
  induction items with
  | nil => intro i r; rfl
  | cons it rest ih =>
    intro i r
    dsimp only [worker2Loop]
    by_cases h1 : it.decodeOk = true
    · rw [if_pos h1]
      by_cases h2 : it.encodeOk = true
      · rw [if_pos h2]
        simp only [List.all_cons, Worker2Event.isProgressEvent, Bool.true_and]
        exact ih (i + 1) _
      · rw [if_neg h2]
        exact ih (i + 1) r
    · rw [if_neg h1]
      exact ih (i + 1) r

/-- **C3**: the worker posts the terminal `done` event exactly once, as
the last message, carrying precisely the accumulated successful results
(possibly the empty list); every other message of the batch is a
progress message, so no message follows the terminal one. -/
theorem worker2Run_single_terminal_event (opts : Worker2Options)
    (clock : ℕ → ℕ) (items : List Worker2Item) :
    (worker2Run opts clock items).events =
      (worker2Loop opts (clock 0) items.length items 0 []).events ++
        [Worker2Event.done (worker2Run opts clock items).results] ∧
    ((worker2Loop opts (clock 0) items.length items 0 []).events.all
      Worker2Event.isProgressEvent) = true ∧
    (worker2Run opts clock items).events.countP
      (fun e => !e.isProgressEvent) = 1 := by
  refine ⟨rfl, worker2Loop_events_progress opts (clock 0) items.length items 0 [], ?_⟩
  dsimp only [worker2Run]
  rw [List.countP_append]
  have h := worker2Loop_events_progress opts (clock 0) items.length items 0 []
  rw [List.all_eq_true] at h
  have h0 : (worker2Loop opts (clock 0) items.length items 0 []).events.countP
      (fun e => !e.isProgressEvent) = 0 := by
    rw [List.countP_eq_zero]
    intro e he
    simp [h e he]
  rw [h0]
  rfl

/-- **C4 (amended)**: the loop omits failed images from the results and
posts no progress message for them; every progress message carries the
original file name and the 1-based batch position `i + 1` of its image —
not the running success count — and the results are in bijection with
the successful images. -/
theorem worker2_progress_events_spec (opts : Worker2Options) (ts totalCount : ℕ) :
    ∀ (items : List Worker2Item) (i : ℕ) (registry : List (List Char)),
      (worker2Loop opts ts totalCount items i registry).events =
        ((items.enumFrom i).filter (fun p => p.2.decodeOk && p.2.encodeOk)).map
          (fun p => Worker2Event.progress (p.1 + 1) totalCount p.2.name) ∧
      (worker2Loop opts ts totalCount items i registry).results.length =
        ((items.enumFrom i).filter (fun p => p.2.decodeOk && p.2.encodeOk)).length := by
  intro items
  induction items with
  | nil => intro i r; exact ⟨rfl, rfl⟩
  | cons it rest ih =>
    intro i r
    dsimp only [worker2Loop]
    rw [List.enumFrom_cons]
    by_cases h1 : it.decodeOk = true
    · rw [if_pos h1]
      by_cases h2 : it.encodeOk = true
      · rw [if_pos h2, List.filter_cons_of_pos (by simp [h1, h2])]
        constructor
        · rw [List.map_cons, (ih (i + 1) _).1]
        · rw [List.length_cons, List.length_cons, (ih (i + 1) _).2]
      · rw [if_neg h2, List.filter_cons_of_neg (by simp [h1, h2])]
        exact ih (i + 1) r
    · rw [if_neg h1, List.filter_cons_of_neg (by simp [h1])]
      exact ih (i + 1) r

def c4ItemA : Worker2Item := ⟨"a.png".toList, "id-a".toList, true, true, 10⟩

def c4ItemB : Worker2Item := ⟨"b.png".toList, "id-b".toList, false, true, 10⟩

def c4ItemC : Worker2Item := ⟨"c.png".toList, "id-c".toList, true, true, 12⟩

def c4Options : Worker2Options :=
  { width := 4, height := 4, fit := .cover, borderRadius := 0,
    format := .png, quality := none, removeBackground := false,
    filenameTemplate := "{name}".toList, presetName := none }

/-- **C4 (counterexample)**: in the 3-image batch whose second image
fails to decode there are exactly 2 results and 2 progress events and
the terminal event fires, but the second progress event carries
`processedCount = 3` (the third image's batch position), not the
running success count 2. -/
theorem worker2_progress_count_counterexample :
    (worker2Run c4Options (fun _ => 1000) [c4ItemA, c4ItemB, c4ItemC]).results.length = 2 ∧
    (worker2Run c4Options (fun _ => 1000) [c4ItemA, c4ItemB, c4ItemC]).events =
      [Worker2Event.progress 1 3 ("a.png".toList),
       Worker2Event.progress 3 3 ("c.png".toList),
       Worker2Event.done
         [⟨"a".toList, 4, 4, 10, "id-a".toList⟩,
          ⟨"c".toList, 4, 4, 12, "id-c".toList⟩]] ∧
    (worker2Run c4Options (fun _ => 1000) [c4ItemA, c4ItemB, c4ItemC]).events.get? 1 ≠
      some (Worker2Event.progress 2 3 ("c.png".toList)) := by
  refine ⟨by decide, by decide, by decide⟩

theorem worker2Loop_decode_names (opts : Worker2Options) (ts totalCount : ℕ) :
    ∀ (items : List Worker2Item) (i : ℕ) (registry : List (List Char)),
      ((worker2Loop opts ts totalCount items i registry).actions.filter
        Worker2Action.isDecode).map Worker2Action.actionName =
        items.map Worker2Item.name := by
  intro items
  induction items with
  | nil => intro i r; rfl
  | cons it rest ih =>
    intro i r
    dsimp only [worker2Loop]
    by_cases h1 : it.decodeOk = true
    · rw [if_pos h1]
      by_cases h2 : it.encodeOk = true
      · rw [if_pos h2]
        simp [List.filter_cons, Worker2Action.isDecode,
          Worker2Action.actionName, ih (i + 1)]
      · rw [if_neg h2]
        simp [List.filter_cons, Worker2Action.isDecode,
          Worker2Action.actionName, ih (i + 1)]
    · rw [if_neg h1]
      simp [List.filter_cons, Worker2Action.isDecode,
        Worker2Action.actionName, ih (i + 1)]

/-- **C5 (amended)**: the worker has no dimension validation: for every
options record — zero target width/height included — it attempts to
decode every single image of the batch (so per-image work is performed)
and always finishes with the terminal `done` event; no batch-level
failure path exists. -/
theorem worker2_no_dimension_validation (opts : Worker2Options)
    (clock : ℕ → ℕ) (items : List Worker2Item) :
    ((worker2Run opts clock items).actions.filter
      Worker2Action.isDecode).map Worker2Action.actionName =
        items.map Worker2Item.name ∧
    (worker2Run opts clock items).events.getLast? =
      some (Worker2Event.done (worker2Run opts clock items).results) := by
  constructor
  · exact worker2Loop_decode_names opts (clock 0) items.length items 0 []
  · dsimp only [worker2Run]
    exact List.getLast?_concat _

def c5Options : Worker2Options :=
  { width := 0, height := 0, fit := .cover, borderRadius := 0,
    format := .png, quality := none, removeBackground := false,
    filenameTemplate := "{name}".toList, presetName := none }

def c5Items : List Worker2Item :=
  [⟨"a.png".toList, "id-a".toList, true, false, 0⟩,
   ⟨"b.png".toList, "id-b".toList, true, false, 0⟩]

/-- **C5 (counterexample)**: a batch whose target is 0x0 is not rejected
with `InvalidDimensions` before per-image work: the worker still decodes
and attempts to encode both images and completes normally with an
empty-results terminal event. -/
theorem worker2_zero_dims_counterexample :
    (worker2Run c5Options (fun _ => 0) c5Items).actions =
      [Worker2Action.decodeAttempt ("a.png".toList),
       Worker2Action.encodeAttempt ("a.png".toList),
       Worker2Action.decodeAttempt ("b.png".toList),
       Worker2Action.encodeAttempt ("b.png".toList)] ∧
    (worker2Run c5Options (fun _ => 0) c5Items).events =
      [Worker2Event.done []] := by
  refine ⟨by decide, by decide⟩

/-- With the template `\x7btimestamp\x7d` the substitution result is the
decimal timestamp itself, sanitized. -/
theorem parseFilenameTemplate_timestamp (m : ImageMetadata) :
    parseFilenameTemplate ("{timestamp}".toList) m =
      sanitizeFilename (natToChars m.timestamp) := by
  have h1 : ∀ repl, replaceAll ("{name}".toList) repl ("{timestamp}".toList) =
      "{timestamp}".toList := fun _ => rfl
  have h2 : ∀ repl, replaceAll ("{ext}".toList) repl ("{timestamp}".toList) =
      "{timestamp}".toList := fun _ => rfl
  have h3 : ∀ repl, replaceAll ("{index}".toList) repl ("{timestamp}".toList) =
      "{timestamp}".toList := fun _ => rfl
  have h4 : ∀ repl, replaceAll ("{width}".toList) repl ("{timestamp}".toList) =
      "{timestamp}".toList := fun _ => rfl
  have h5 : ∀ repl, replaceAll ("{height}".toList) repl ("{timestamp}".toList) =
      "{timestamp}".toList := fun _ => rfl
  have h6 : ∀ repl, replaceAll ("{ratio}".toList) repl ("{timestamp}".toList) =
      "{timestamp}".toList := fun _ => rfl
  have h7 : ∀ repl, replaceAll ("{preset}".toList) repl ("{timestamp}".toList) =
      "{timestamp}".toList := fun _ => rfl
  have h8 : ∀ repl, replaceAll ("{timestamp}".toList) repl ("{timestamp}".toList) =
      repl ++ [] := fun _ => rfl
  simp only [parseFilenameTemplate]
  rw [h1, h2, h3, h4, h5, h6, h7, h8, List.append_nil]

theorem worker2Loop_baseNames_timestamp (opts : Worker2Options)
    (ts totalCount : ℕ) (htemp : opts.filenameTemplate = "{timestamp}".toList) :
    ∀ (items : List Worker2Item) (i : ℕ) (registry : List (List Char)),
      (worker2Loop opts ts totalCount items i registry).baseNames =
        List.replicate
          (worker2Loop opts ts totalCount items i registry).results.length
          (sanitizeFilename (natToChars ts)) := by
  intro items
  induction items with
  | nil => intro i r; rfl
  | cons it rest ih =>
    intro i r
    dsimp only [worker2Loop]
    by_cases h1 : it.decodeOk = true
    · rw [if_pos h1]
      by_cases h2 : it.encodeOk = true
      · rw [if_pos h2]
        simp only
        rw [htemp, parseFilenameTemplate_timestamp]
        rw [List.length_cons, List.replicate_succ, ih (i + 1) _]
      · rw [if_neg h2]
        exact ih (i + 1) r
    · rw [if_neg h1]
      exact ih (i + 1) r

/-- **C9 (amended)**: imageProcessor.worker reads `Date.now()` once per
batch; with the template `\x7btimestamp\x7d` every successful image's
candidate filename is the same batch-timestamp string. -/
theorem worker2_timestamp_batch_shared (opts : Worker2Options)
    (clock : ℕ → ℕ) (items : List Worker2Item)
    (htemp : opts.filenameTemplate = "{timestamp}".toList) :
    (worker2Run opts clock items).baseNames =
      List.replicate (worker2Run opts clock items).results.length
        (sanitizeFilename (natToChars (clock 0))) := by
  dsimp only [worker2Run]
  exact worker2Loop_baseNames_timestamp opts (clock 0) items.length htemp items 0 []

def c9Options : Worker2Options :=
  { width := 4, height := 4, fit := .cover, borderRadius := 0,
    format := .png, quality := none, removeBackground := false,
    filenameTemplate := "{timestamp}".toList, presetName := none }

def c9Items : List Worker2Item :=
  [⟨"a.png".toList, "ida".toList, true, true, 1⟩,
   ⟨"b.png".toList, "idb".toList, true, true, 1⟩]

/-- Witness for the amended C9 on a concrete two-image batch. -/
theorem worker2_timestamp_batch_shared_witness :
    (worker2Run c9Options (fun _ => 777) c9Items).baseNames =
      List.replicate (worker2Run c9Options (fun _ => 777) c9Items).results.length
        (sanitizeFilename (natToChars 777)) :=
  worker2_timestamp_batch_shared c9Options (fun _ => 777) c9Items rfl

/-! ## The image.worker filename accumulation

`src/workers/image.worker.ts` calls `generateFileName` once per
successful image; `Date.now()` executes inside that function, so the
k-th successful image consumes the k-th clock reading. -/

structure Worker1Item where
  name : List Char
  id : List Char
  ok : Bool
  bitmapWidth : ℕ
  bitmapHeight : ℕ

structure Worker1Options where
  resize : Option (ℕ × ℕ × FitOption)
  borderRadius : Option ℚ
  format : ImageFormat
  quality : Option ℕ
  removeBackground : Bool
  filenameTemplate : Option (List Char)
  presetName : Option (List Char)

/-- The filenames produced by the image.worker loop: the k-th successful
image is named with `index = processedCount = k + 1` and the k-th
`Date.now()` reading `clock k`; failed images are skipped. -/
def worker1Filenames (opts : Worker1Options) (clock : ℕ → ℕ)
    (ratioOracle : ℕ → ℕ → List Char) :
    List Worker1Item → ℕ → List (List Char)
  | [], _ => []
  | item :: rest, k =>
    if item.ok then
      let canvasWidth := (opts.resize.map (fun r => r.1)).getD item.bitmapWidth
      let canvasHeight := (opts.resize.map (fun r => r.2.1)).getD item.bitmapHeight
      let effFormat := if opts.removeBackground ∧ opts.format = ImageFormat.jpeg
        then ImageFormat.png else opts.format
      generateFileName item.name item.id (k + 1)
          (opts.filenameTemplate.getD ("{name}_{index}".toList)) effFormat
          canvasWidth canvasHeight opts.presetName
          (ratioOracle canvasWidth canvasHeight) (clock k) ::
        worker1Filenames opts clock ratioOracle rest (k + 1)
    else worker1Filenames opts clock ratioOracle rest k

def c9W1Options : Worker1Options :=
  { resize := some (4, 4, .cover), borderRadius := none, format := .png,
    quality := none, removeBackground := false,
    filenameTemplate := some ("{timestamp}".toList), presetName := none }

/-- **C9 (counterexample)**: in image.worker the timestamp is
re-captured per image inside `generateFileName`: with a clock advancing
by 1000 between readings, the two images of one batch expand
`\x7btimestamp\x7d` to different values. -/
theorem worker1_timestamp_per_image :
    worker1Filenames c9W1Options (fun k => 1000 * k) (fun _ _ => "1.00".toList)
      [⟨"a.png".toList, "ida".toList, true, 6, 6⟩,
       ⟨"b.png".toList, "idb".toList, true, 6, 6⟩] 0 =
      ["0.png".toList, "1000.png".toList] ∧
    ("0.png".toList : List Char) ≠ "1000.png".toList := by
  refine ⟨by decide, by decide⟩

end BatchImageTool
